import Mathlib

/-!
Verification development for a small Rust shapes/canvas program
(`src/main.rs`). The program defines a 2D `Coord`, a polymorphic `Shape`
(circle, rectangle, triangle) with `origin`, `set_origin` and `get_area`,
and a `Canvas` holding an ordered sequence of shared, mutex-guarded shape
handles with indexed operations `add`, `get`, `remove`, `get_area`,
`set_origin`. The entry routine mutates one shape's origin from ten
concurrent worker threads, each performing a non-atomic
read-origin/write-origin-plus-one cycle.

Embedding choices:
* Rust `f32` scalars are embedded as exact rationals `ℚ`; `f32::consts::PI`
  is embedded as the exact rational value of that 32-bit constant
  (`13176795 / 4194304`). Rounding of `f32` arithmetic is not modelled:
  every arithmetic operation is taken at its exact rational value.
* `Arc<Mutex<dyn Shape>>` handles are embedded by their contents: the
  single-threaded `Canvas` operations become pure functions, with
  `Canvas.set_origin` returning the updated canvas (explicit state
  passing), and the multi-threaded demo becomes a small-step system over
  an explicit interleaving schedule in which each critical section
  (one locked read of the origin, or one locked `set_origin`) is one
  atomic step, exactly the atomicity the per-shape mutex provides.
* Fallible operations return `Option`: `Vec::remove`'s out-of-range panic
  is modelled as `none`.
-/

/-- Embedding of `struct Coord { x: f32, y: f32 }`. -/
structure Coord where
  x : ℚ
  y : ℚ
deriving DecidableEq, Repr

/-- Embedding of `Coord::default()`, i.e. `(0, 0)`. -/
def Coord.default : Coord := ⟨0, 0⟩

/-- Embedding of the three `Shape` implementors as a sum type: `Circle`
with `origin` and `radius`, `Rectangle` with `origin`, `side_a`, `side_b`,
and `Triangle` with `origin`, `base`, `height`. -/
inductive Shape where
  | circle (origin : Coord) (radius : ℚ)
  | rectangle (origin : Coord) (side_a : ℚ) (side_b : ℚ)
  | triangle (origin : Coord) (base : ℚ) (height : ℚ)
deriving DecidableEq, Repr

/-- Exact rational value of the 32-bit float constant `f32::consts::PI`
(bit pattern `0x40490FDB`), used by `Circle::get_area`. -/
def PI : ℚ := 13176795 / 4194304

/-- Embedding of `fn origin(&self) -> Coord` of each variant: each returns
its `origin` field. -/
def Shape.origin : Shape → Coord
  | .circle o _ => o
  | .rectangle o _ _ => o
  | .triangle o _ _ => o

/-- Embedding of `fn set_origin(&mut self, origin: Coord)` of each
variant: each replaces its `origin` field. -/
def Shape.set_origin : Shape → Coord → Shape
  | .circle _ r, o => .circle o r
  | .rectangle _ a b, o => .rectangle o a b
  | .triangle _ b h, o => .triangle o b h

/-- Embedding of `fn get_area(&self) -> f32` of each variant:
`PI * self.radius.powi(2)`, `self.side_a * self.side_b`, and
`0.5 * self.base * self.height`. -/
def Shape.get_area : Shape → ℚ
  | .circle _ r => PI * r ^ 2
  | .rectangle _ a b => a * b
  | .triangle _ b h => (1 / 2) * b * h

/-- Embedding of `struct Canvas { shapes: Vec<ShapeObject> }`; each
`Arc<Mutex<dyn Shape>>` handle is embedded by the shape it guards. -/
structure Canvas where
  shapes : List Shape
deriving DecidableEq, Repr

/-- Embedding of `Canvas::add`: `self.shapes.push(shape)`. -/
def Canvas.add (c : Canvas) (s : Shape) : Canvas :=
  ⟨c.shapes ++ [s]⟩

/-- Embedding of `Canvas::get`: `self.shapes.get(index)`. -/
def Canvas.get (c : Canvas) (i : ℕ) : Option Shape :=
  c.shapes[i]?

/-- Embedding of `Canvas::remove`: `self.shapes.remove(index)`.
`Vec::remove` removes and returns the element at `index`, shifting later
elements down; it panics when `index` is out of range. The panic is
modelled as `none`; the in-range case returns the removed shape together
with the updated canvas (explicit state passing for `&mut self`). -/
def Canvas.remove (c : Canvas) (i : ℕ) : Option (Shape × Canvas) :=
  match c.shapes[i]? with
  | some s => some (s, ⟨c.shapes.eraseIdx i⟩)
  | none => none

/-- Embedding of `Canvas::get_area`:
`self.get(index).map(|s| s.lock().unwrap().get_area())`. -/
def Canvas.get_area (c : Canvas) (i : ℕ) : Option ℚ :=
  (c.get i).map Shape.get_area

/-- Embedding of `Canvas::set_origin`: when `self.shapes.get(index)` is
`Some(shape)`, the shape's origin is replaced under its lock; otherwise
nothing happens. The mutation through the mutex is embedded as returning
the updated canvas. -/
def Canvas.set_origin (c : Canvas) (i : ℕ) (o : Coord) : Canvas :=
  match c.shapes[i]? with
  | some s => ⟨c.shapes.set i (s.set_origin o)⟩
  | none => c

/-! ## The concurrent demo of `main`

`main` spawns 10 scoped threads, each of which runs
`let Coord { x, y } = canvas.get(1).unwrap().lock().unwrap().origin();`
followed by `canvas.set_origin(1, Coord { x: x + 1.0, y });`.
Each worker thus performs two separate critical sections on the same
shape's mutex: an atomic locked read of the origin, then an atomic locked
write of `(x + 1, y)`. The pair is not atomic, so updates can be lost.

The demo is embedded as a small-step system: a worker's local state
records whether it has not yet read (`idle`), has read the origin `o` and
not yet written (`pending o`), or has finished (`done`). A schedule is a
list of worker indices; each occurrence lets that worker run its next
critical section. Per-shape mutual exclusion is captured exactly by each
critical section being one atomic step of the interleaving. -/

/-- Local state of one worker thread of the demo in `main`. -/
inductive TState where
  | idle
  | pending (o : Coord)
  | done
deriving DecidableEq, Repr

/-- Whether a worker has read the origin but not yet written it back. -/
def TState.isPending : TState → Bool
  | .pending _ => true
  | _ => false

/-- Whether a worker has finished its read/write cycle. -/
def TState.isDone : TState → Bool
  | .done => true
  | _ => false

/-- Global state of the demo: the shared canvas plus each worker's local
state. -/
structure Pool where
  canvas : Canvas
  ts : List TState
deriving DecidableEq, Repr

/-- The origin a worker observes: `canvas.get(i).unwrap().lock().unwrap().origin()`
(the locked read, one critical section). -/
def readOrigin (c : Canvas) (i : ℕ) : Option Coord :=
  (c.get i).map Shape.origin

/-- One atomic step of worker `t` on the shape at index `i`: an idle
worker performs its locked read of the origin; a pending worker performs
`canvas.set_origin(i, Coord { x: x + 1.0, y })` (the locked write) and
finishes. A finished or nonexistent worker leaves the state unchanged.
(The read branch's `none` case models `get(i).unwrap()` on an
out-of-range index; it is unreachable in the demo, where `i` is in
range and the canvas structure never changes.) -/
def poolStep (i : ℕ) (σ : Pool) (t : ℕ) : Pool :=
  match σ.ts[t]? with
  | some .idle =>
    match readOrigin σ.canvas i with
    | some o => ⟨σ.canvas, σ.ts.set t (.pending o)⟩
    | none => σ
  | some (.pending o) => ⟨σ.canvas.set_origin i ⟨o.x + 1, o.y⟩, σ.ts.set t .done⟩
  | _ => σ

/-- Run a whole interleaving schedule from a starting state. -/
def poolRun (i : ℕ) (σ : Pool) (sched : List ℕ) : Pool :=
  sched.foldl (poolStep i) σ

/-- Initial state of the demo: the canvas as built so far, and `n`
workers none of which has run yet. -/
def initPool (c : Canvas) (n : ℕ) : Pool :=
  ⟨c, List.replicate n .idle⟩

/-- Every worker has completed its read/write cycle (the state after
`thread::scope` joins all workers). -/
def allDone (σ : Pool) : Prop :=
  ∀ s ∈ σ.ts, s = TState.done

instance (σ : Pool) : Decidable (allDone σ) :=
  inferInstanceAs (Decidable (∀ s ∈ σ.ts, s = TState.done))

/-- Number of workers currently between their read and their write. -/
def pendCount (σ : Pool) : ℕ :=
  σ.ts.countP TState.isPending

/-- Number of workers that have completed their write. -/
def doneCount (σ : Pool) : ℕ :=
  σ.ts.countP TState.isDone

/-- Two workers' read/write pairs interleave in a schedule iff at some
moment (after some prefix of the schedule) two workers are simultaneously
pending, i.e. both have performed their read and neither its write — the
two position intervals from read to write overlap. -/
def Interleaved (i : ℕ) (σ0 : Pool) (sched : List ℕ) : Prop :=
  ∃ pre suf, sched = pre ++ suf ∧ 2 ≤ pendCount (poolRun i σ0 pre)

/-- The canvas built by `main`: circle of radius 5, rectangle 2×4 and
triangle with base 2 and height 4, all at the default origin `(0,0)`. -/
def demoCanvas : Canvas :=
  (((⟨[]⟩ : Canvas).add (.circle Coord.default 5)).add
      (.rectangle Coord.default 2 4)).add
    (.triangle Coord.default 2 4)

/-- The demo canvas right before the concurrent phase of `main`, after
`canvas.set_origin(1, Coord { x: 5.0, y: 5.0 })`. -/
def demoCanvasAfterMove : Canvas :=
  demoCanvas.set_origin 1 ⟨5, 5⟩

/-- Basic safety invariant of the demo, relative to shape index `i` and
initial origin `(x0, y0)`: the observed origin's `x` lies between `x0`
(resp. `x0 + 1` once a write happened) and `x0` plus the number of
completed writes, its `y` is still `y0`, and every pending worker's read
value satisfies the same bounds. -/
def STD (i : ℕ) (x0 y0 : ℚ) (σ : Pool) : Prop :=
  (∃ xc : ℚ, readOrigin σ.canvas i = some ⟨xc, y0⟩ ∧ x0 ≤ xc ∧
      xc ≤ x0 + doneCount σ ∧ (1 ≤ doneCount σ → x0 + 1 ≤ xc)) ∧
  (∀ (k : ℕ) (o : Coord), σ.ts[k]? = some (.pending o) →
      o.y = y0 ∧ x0 ≤ o.x ∧ o.x ≤ x0 + doneCount σ)

/-- A lost update has become unavoidable (or already happened): either
the observed `x` and every pending read are at least one below the tight
value `x0 + doneCount`, or two workers are simultaneously pending, or
some pending worker read a value at least one below the tight value. -/
def Lossy (i : ℕ) (x0 y0 : ℚ) (σ : Pool) : Prop :=
  ((∃ xc : ℚ, readOrigin σ.canvas i = some ⟨xc, y0⟩ ∧ xc + 1 ≤ x0 + doneCount σ) ∧
    (∀ (k : ℕ) (o : Coord), σ.ts[k]? = some (.pending o) →
        o.x + 1 ≤ x0 + doneCount σ)) ∨
  2 ≤ pendCount σ ∨
  (∃ (k : ℕ) (o : Coord), σ.ts[k]? = some (.pending o) ∧
      o.x + 1 ≤ x0 + doneCount σ)

/-! ## Helper lemmas -/

/-- On every variant, `set_origin` replaces the origin. -/
theorem Shape.origin_set_origin (s : Shape) (o : Coord) :
    (s.set_origin o).origin = o := by
  cases s <;> rfl

/-- On every variant, `set_origin` leaves the area unchanged. -/
theorem Shape.get_area_set_origin (s : Shape) (o : Coord) :
    (s.set_origin o).get_area = s.get_area := by
  cases s <;> rfl

/-- Claim C2: for every circle, rectangle and triangle, `get_area` equals
the closed-form formula over the variant's own dimension fields — with no
validation or special-casing of negative or zero dimensions (the formula
holds for all rational dimension values) — and in particular
Rectangle(2,4) → 8, Circle(radius 5) → PI·25 and
Triangle(base 2, height 4) → 4. -/
theorem shape_area_formulas :
    (∀ (o : Coord) (r : ℚ), (Shape.circle o r).get_area = PI * r ^ 2) ∧
    (∀ (o : Coord) (a b : ℚ), (Shape.rectangle o a b).get_area = a * b) ∧
    (∀ (o : Coord) (b h : ℚ), (Shape.triangle o b h).get_area = (1 / 2) * b * h) ∧
    (Shape.rectangle Coord.default 2 4).get_area = 8 ∧
    (Shape.circle Coord.default 5).get_area = PI * 25 ∧
    (Shape.triangle Coord.default 2 4).get_area = 4 := by
  refine ⟨fun _ _ => rfl, fun _ _ _ => rfl, fun _ _ _ => rfl, ?_, ?_, ?_⟩
  · show (2 : ℚ) * 4 = 8
    norm_num
  · show PI * (5 : ℚ) ^ 2 = PI * 25
    norm_num
  · show (1 / 2 : ℚ) * 2 * 4 = 4
    norm_num

/-- Claim C3: for every canvas, in-range index `i` and coordinate `o`,
`set_origin i o` followed by `get i` yields a shape whose origin is
exactly `o`. -/
theorem canvas_set_origin_then_get (c : Canvas) (i : ℕ) (o : Coord)
    (h : i < c.shapes.length) :
    ((c.set_origin i o).get i).map Shape.origin = some o := by
  have hs : c.shapes[i]? = some c.shapes[i] := List.getElem?_eq_getElem h
  unfold Canvas.set_origin
  rw [hs]
  show ((⟨c.shapes.set i (c.shapes[i].set_origin o)⟩ : Canvas).get i).map Shape.origin = some o
  unfold Canvas.get
  rw [List.getElem?_set_self (by simpa using h)]
  simp [Shape.origin_set_origin]

/-- Claim C3 witness. -/
theorem canvas_set_origin_then_get_witness :
    1 < demoCanvas.shapes.length ∧
      ((demoCanvas.set_origin 1 ⟨5, 5⟩).get 1).map Shape.origin = some ⟨5, 5⟩ :=
  ⟨by decide, canvas_set_origin_then_get demoCanvas 1 ⟨5, 5⟩ (by decide)⟩

/-- Claim C4: `set_origin` with an out-of-range index is a silent no-op:
the canvas is returned unchanged (it is a total function, so no failure
or termination occurs), hence every in-range shape keeps its area and its
origin. -/
theorem canvas_set_origin_oob (c : Canvas) (i : ℕ) (o : Coord)
    (h : c.shapes.length ≤ i) :
    c.set_origin i o = c ∧
    ∀ j : ℕ, (c.set_origin i o).get_area j = c.get_area j ∧
      ((c.set_origin i o).get j).map Shape.origin = (c.get j).map Shape.origin := by
  have hs : c.shapes[i]? = none := List.getElem?_eq_none h
  have he : c.set_origin i o = c := by unfold Canvas.set_origin; rw [hs]
  exact ⟨he, fun j => by rw [he]; exact ⟨rfl, rfl⟩⟩

/-- Claim C4 witness. -/
theorem canvas_set_origin_oob_witness :
    demoCanvas.shapes.length ≤ 3 ∧ demoCanvas.set_origin 3 ⟨7, 7⟩ = demoCanvas :=
  ⟨by decide, (canvas_set_origin_oob demoCanvas 3 ⟨7, 7⟩ (by decide)).1⟩

/-- Claim C5: `get i` returns the shape handle stored at position `i`
when `i` is less than the canvas length, and `none` when `i` is out of
range (in particular on an empty canvas); it is a total function (no
panic) and does not lock or alter the shape. -/
theorem canvas_get_spec (c : Canvas) (i : ℕ) :
    (∀ h : i < c.shapes.length, c.get i = some (c.shapes.get ⟨i, h⟩)) ∧
    (c.shapes.length ≤ i → c.get i = none) :=
  ⟨fun h => by simp [Canvas.get, List.getElem?_eq_getElem h],
   fun h => by simp [Canvas.get, List.getElem?_eq_none h]⟩

/-- Claim C5 witness (in-range and out-of-range, including the empty
canvas). -/
theorem canvas_get_spec_witness :
    (1 < demoCanvas.shapes.length ∧
      demoCanvas.get 1 = some (demoCanvas.shapes.get ⟨1, by decide⟩)) ∧
    (demoCanvas.shapes.length ≤ 3 ∧ demoCanvas.get 3 = none) ∧
    ((⟨[]⟩ : Canvas).shapes.length ≤ 0 ∧ (⟨[]⟩ : Canvas).get 0 = none) :=
  ⟨⟨by decide, (canvas_get_spec demoCanvas 1).1 (by decide)⟩,
   ⟨by decide, (canvas_get_spec demoCanvas 3).2 (by decide)⟩,
   ⟨by decide, (canvas_get_spec ⟨[]⟩ 0).2 (by decide)⟩⟩

/-- Claim C6: `get_area i` returns `some` of the area computed by the
shape stored at index `i` when `i` is in range, and `none` when `i` is
out of range; being a pure function of the canvas, it modifies neither
the canvas nor any shape. -/
theorem canvas_get_area_spec (c : Canvas) (i : ℕ) :
    (∀ h : i < c.shapes.length,
      c.get_area i = some (c.shapes.get ⟨i, h⟩).get_area) ∧
    (c.shapes.length ≤ i → c.get_area i = none) :=
  ⟨fun h => by simp [Canvas.get_area, Canvas.get, List.getElem?_eq_getElem h],
   fun h => by simp [Canvas.get_area, Canvas.get, List.getElem?_eq_none h]⟩

/-- Claim C6 witness. -/
theorem canvas_get_area_spec_witness :
    (1 < demoCanvas.shapes.length ∧
      demoCanvas.get_area 1 = some (demoCanvas.shapes.get ⟨1, by decide⟩).get_area) ∧
    (demoCanvas.shapes.length ≤ 5 ∧ demoCanvas.get_area 5 = none) :=
  ⟨⟨by decide, (canvas_get_area_spec demoCanvas 1).1 (by decide)⟩,
   ⟨by decide, (canvas_get_area_spec demoCanvas 5).2 (by decide)⟩⟩

/-- Claim C7: `remove i` with an in-range `i` removes and returns exactly
the shape handle at position `i` together with the canvas whose length
dropped by one, in which handles before `i` are in place and handles
after `i` are shifted down by one; with an out-of-range `i` it fails
abruptly (`Vec::remove` panics, modelled by `none`) rather than
returning a recoverable value. -/
theorem canvas_remove_spec (c : Canvas) (i : ℕ) :
    (∀ h : i < c.shapes.length,
      c.remove i = some (c.shapes.get ⟨i, h⟩, ⟨c.shapes.eraseIdx i⟩) ∧
        (c.shapes.eraseIdx i).length + 1 = c.shapes.length ∧
        (∀ j, j < i → (c.shapes.eraseIdx i)[j]? = c.shapes[j]?) ∧
        (∀ j, i ≤ j → (c.shapes.eraseIdx i)[j]? = c.shapes[j + 1]?)) ∧
    (c.shapes.length ≤ i → c.remove i = none) := by
  constructor
  · intro h
    refine ⟨?_, ?_, ?_, ?_⟩
    · unfold Canvas.remove
      rw [List.getElem?_eq_getElem h]
      simp
    · rw [List.length_eraseIdx]
      simp only [h, if_true]
      omega
    · exact fun j hj => List.getElem?_eraseIdx_of_lt _ _ _ hj
    · exact fun j hj => List.getElem?_eraseIdx_of_ge _ _ _ hj
  · intro h
    unfold Canvas.remove
    rw [List.getElem?_eq_none h]

/-- Claim C7 witness. -/
theorem canvas_remove_spec_witness :
    (1 < demoCanvas.shapes.length ∧
      demoCanvas.remove 1 =
        some (demoCanvas.shapes.get ⟨1, by decide⟩, ⟨demoCanvas.shapes.eraseIdx 1⟩) ∧
      (demoCanvas.shapes.eraseIdx 1).length + 1 = demoCanvas.shapes.length) ∧
    (demoCanvas.shapes.length ≤ 4 ∧ demoCanvas.remove 4 = none) :=
  ⟨⟨by decide, ((canvas_remove_spec demoCanvas 1).1 (by decide)).1,
      ((canvas_remove_spec demoCanvas 1).1 (by decide)).2.1⟩,
   ⟨by decide, (canvas_remove_spec demoCanvas 4).2 (by decide)⟩⟩

/-- Claim C8: `add` appends the handle at the end: the length grows by
one, the new last position holds the added handle, every previously
stored handle keeps its index, and `add` is a total function (no error
condition). -/
theorem canvas_add_spec (c : Canvas) (s : Shape) :
    (c.add s).shapes.length = c.shapes.length + 1 ∧
    (c.add s).shapes[c.shapes.length]? = some s ∧
    ∀ j, j < c.shapes.length → (c.add s).shapes[j]? = c.shapes[j]? := by
  refine ⟨by simp [Canvas.add], by simp [Canvas.add], fun j hj => ?_⟩
  show (c.shapes ++ [s])[j]? = c.shapes[j]?
  rw [List.getElem?_append]
  simp [hj]

/-- Claim C8 witness. -/
theorem canvas_add_spec_witness :
    (demoCanvas.add (.circle ⟨1, 1⟩ 3)).shapes.length = demoCanvas.shapes.length + 1 ∧
    (demoCanvas.add (.circle ⟨1, 1⟩ 3)).shapes[demoCanvas.shapes.length]? =
      some (.circle ⟨1, 1⟩ 3) ∧
    (0 < demoCanvas.shapes.length ∧
      (demoCanvas.add (.circle ⟨1, 1⟩ 3)).shapes[0]? = demoCanvas.shapes[0]?) :=
  ⟨(canvas_add_spec demoCanvas (.circle ⟨1, 1⟩ 3)).1,
   (canvas_add_spec demoCanvas (.circle ⟨1, 1⟩ 3)).2.1,
   by decide, (canvas_add_spec demoCanvas (.circle ⟨1, 1⟩ 3)).2.2 0 (by decide)⟩

/-- Claim C9: for every shape variant, `set_origin` changes only the
origin field: the geometry fields are untouched (made explicit per
variant), so the area is the same before and after any sequence of
`set_origin` calls. -/
theorem shape_set_origin_frame :
    (∀ (s : Shape) (o : Coord),
      (s.set_origin o).get_area = s.get_area ∧ (s.set_origin o).origin = o) ∧
    (∀ (o o' : Coord) (r : ℚ), (Shape.circle o r).set_origin o' = Shape.circle o' r) ∧
    (∀ (o o' : Coord) (a b : ℚ),
      (Shape.rectangle o a b).set_origin o' = Shape.rectangle o' a b) ∧
    (∀ (o o' : Coord) (b h : ℚ),
      (Shape.triangle o b h).set_origin o' = Shape.triangle o' b h) ∧
    (∀ (s : Shape) (os : List Coord),
      (os.foldl Shape.set_origin s).get_area = s.get_area) := by
  refine ⟨fun s o => ⟨Shape.get_area_set_origin s o, Shape.origin_set_origin s o⟩,
    fun _ _ _ => rfl, fun _ _ _ _ => rfl, fun _ _ _ _ => rfl, ?_⟩
  intro s os
  induction os generalizing s with
  | nil => rfl
  | cons o os ih => rw [List.foldl_cons, ih, Shape.get_area_set_origin]

/-- Claim C10: `Canvas.set_origin i o` modifies only the shape at index
`i`: the length and the positions of all other handles are unchanged,
every area is unchanged (also at `i`), and at an in-range `i` the stored
shape is the old one with just its origin replaced. `Canvas.get` and
`Canvas.get_area` are embedded as pure functions of the canvas (Rust
`&self`), so they change neither its length nor the order of its
handles. -/
theorem canvas_set_origin_frame (c : Canvas) (i : ℕ) (o : Coord) :
    (c.set_origin i o).shapes.length = c.shapes.length ∧
    (∀ j, j ≠ i → (c.set_origin i o).shapes[j]? = c.shapes[j]?) ∧
    (∀ j, (c.set_origin i o).get_area j = c.get_area j) ∧
    (∀ h : i < c.shapes.length,
      (c.set_origin i o).shapes[i]? = some ((c.shapes.get ⟨i, h⟩).set_origin o)) := by
  cases hs : c.shapes[i]? with
  | none =>
    have he : c.set_origin i o = c := by unfold Canvas.set_origin; rw [hs]
    rw [he]
    refine ⟨rfl, fun _ _ => rfl, fun _ => rfl, fun h => ?_⟩
    rw [List.getElem?_eq_getElem h] at hs
    exact absurd hs (by simp)
  | some s =>
    have hlen : i < c.shapes.length := (List.getElem?_eq_some.mp hs).1
    have he : c.set_origin i o = ⟨c.shapes.set i (s.set_origin o)⟩ := by
      unfold Canvas.set_origin; rw [hs]
    rw [he]
    refine ⟨List.length_set c.shapes i (s.set_origin o), fun j hj => ?_, fun j => ?_, fun h => ?_⟩
    · exact List.getElem?_set_ne (Ne.symm hj)
    · by_cases hj : j = i
      · subst hj
        show ((c.shapes.set j (s.set_origin o))[j]?).map Shape.get_area =
          (c.shapes[j]?).map Shape.get_area
        rw [List.getElem?_set_self hlen, hs]
        simp [Shape.get_area_set_origin]
      · show ((c.shapes.set i (s.set_origin o))[j]?).map Shape.get_area =
          (c.shapes[j]?).map Shape.get_area
        rw [List.getElem?_set_ne (Ne.symm hj)]
    · rw [List.getElem?_set_self hlen]
      rw [List.getElem?_eq_getElem h] at hs
      simp only [Option.some.injEq] at hs
      rw [← hs]
      simp

/-- Claim C10 witness. -/
theorem canvas_set_origin_frame_witness :
    (demoCanvas.set_origin 1 ⟨5, 5⟩).shapes.length = demoCanvas.shapes.length ∧
    ((0 : ℕ) ≠ 1 ∧
      (demoCanvas.set_origin 1 ⟨5, 5⟩).shapes[0]? = demoCanvas.shapes[0]?) ∧
    (demoCanvas.set_origin 1 ⟨5, 5⟩).get_area 1 = demoCanvas.get_area 1 ∧
    (1 < demoCanvas.shapes.length ∧
      (demoCanvas.set_origin 1 ⟨5, 5⟩).shapes[1]? =
        some ((demoCanvas.shapes.get ⟨1, by decide⟩).set_origin ⟨5, 5⟩)) :=
  ⟨(canvas_set_origin_frame demoCanvas 1 ⟨5, 5⟩).1,
   ⟨by decide, (canvas_set_origin_frame demoCanvas 1 ⟨5, 5⟩).2.1 0 (by decide)⟩,
   (canvas_set_origin_frame demoCanvas 1 ⟨5, 5⟩).2.2.1 1,
   ⟨by decide, (canvas_set_origin_frame demoCanvas 1 ⟨5, 5⟩).2.2.2 (by decide)⟩⟩

/-! ## Lemmas for the concurrent demo -/

/-- Effect of writing one list cell on a `countP`. -/
theorem countP_set_eq {α : Type} (p : α → Bool) (l : List α) (t : ℕ) (b a : α)
    (h : l[t]? = some a) :
    (l.set t b).countP p + (if p a then 1 else 0) =
      l.countP p + (if p b then 1 else 0) := by
  induction l generalizing t with
  | nil => simp at h
  | cons x xs ih =>
    cases t with
    | zero =>
      simp only [List.getElem?_cons_zero, Option.some.injEq] at h
      subst h
      simp only [List.set_cons_zero, List.countP_cons]
      ring
    | succ t =>
      simp only [List.getElem?_cons_succ] at h
      have h2 := ih t h
      simp only [List.set_cons_succ, List.countP_cons]
      omega

/-- A worker step never changes the number of workers. -/
theorem poolStep_ts_length (i : ℕ) (σ : Pool) (t : ℕ) :
    (poolStep i σ t).ts.length = σ.ts.length := by
  unfold poolStep
  cases hts : σ.ts[t]? with
  | none => rfl
  | some s =>
    cases s with
    | idle =>
      cases hro : readOrigin σ.canvas i with
      | none => rfl
      | some o => simp [List.length_set]
    | pending o => simp [List.length_set]
    | done => rfl

/-- A whole schedule never changes the number of workers. -/
theorem poolRun_ts_length (i : ℕ) (σ : Pool) (sched : List ℕ) :
    (poolRun i σ sched).ts.length = σ.ts.length := by
  induction sched generalizing σ with
  | nil => rfl
  | cons t sched ih =>
    show (poolRun i (poolStep i σ t) sched).ts.length = σ.ts.length
    rw [ih, poolStep_ts_length]

/-- After a locked write through `Canvas.set_origin`, the locked read on
the same index observes exactly the written coordinate. -/
theorem readOrigin_set_origin (c : Canvas) (i : ℕ) (o0 o : Coord)
    (h : readOrigin c i = some o0) :
    readOrigin (c.set_origin i o) i = some o := by
  unfold readOrigin Canvas.get at h ⊢
  cases hs : c.shapes[i]? with
  | none => rw [hs] at h; simp at h
  | some s =>
    have hlen : i < c.shapes.length := (List.getElem?_eq_some.mp hs).1
    unfold Canvas.set_origin
    rw [hs]
    show ((c.shapes.set i (s.set_origin o))[i]?).map Shape.origin = some o
    rw [List.getElem?_set_self hlen]
    simp [Shape.origin_set_origin]

/-- A positive pending count exhibits a pending worker. -/
theorem exists_pending_of_pendCount_pos (σ : Pool) (h : 0 < pendCount σ) :
    ∃ (k : ℕ) (o : Coord), σ.ts[k]? = some (.pending o) := by
  obtain ⟨a, ha, hp⟩ := List.countP_pos_iff.mp h
  cases a with
  | pending o =>
    obtain ⟨k, hk, he⟩ := List.getElem_of_mem ha
    exact ⟨k, o, by rw [List.getElem?_eq_getElem hk, he]⟩
  | idle => simp [TState.isPending] at hp
  | done => simp [TState.isPending] at hp

/-- No worker has completed a write in the initial state. -/
theorem doneCount_initPool (c0 : Canvas) (n : ℕ) :
    doneCount (initPool c0 n) = 0 := by
  unfold doneCount initPool
  rw [List.countP_eq_zero]
  intro a ha
  rw [List.mem_replicate] at ha
  rw [ha.2]
  simp [TState.isDone]

/-- Once all workers are joined, the number of completed writes is the
number of workers. -/
theorem doneCount_of_allDone (σ : Pool) (h : allDone σ) :
    doneCount σ = σ.ts.length := by
  unfold doneCount
  rw [List.countP_eq_length]
  intro a ha
  rw [h a ha]
  rfl

/-- Once all workers are joined, no worker is pending. -/
theorem no_pending_of_allDone (σ : Pool) (h : allDone σ) (k : ℕ) (o : Coord) :
    σ.ts[k]? ≠ some (.pending o) := by
  intro hk
  have h2 := h _ (List.getElem?_mem hk)
  simp at h2

/-- The safety invariant holds initially. -/
theorem STD_initPool (c0 : Canvas) (i n : ℕ) (x0 y0 : ℚ)
    (hread : readOrigin c0 i = some ⟨x0, y0⟩) :
    STD i x0 y0 (initPool c0 n) := by
  constructor
  · refine ⟨x0, hread, le_refl x0, ?_, ?_⟩
    · rw [doneCount_initPool]
      simp
    · rw [doneCount_initPool]
      intro h1
      exact absurd h1 (by norm_num)
  · intro k o hk
    have hk2 : (List.replicate n TState.idle)[k]? = some (.pending o) := hk
    rw [List.getElem?_replicate] at hk2
    split at hk2 <;> simp_all

/-- The safety invariant is preserved by every worker step. -/
theorem STD_poolStep (i : ℕ) (x0 y0 : ℚ) (σ : Pool) (t : ℕ)
    (h : STD i x0 y0 σ) : STD i x0 y0 (poolStep i σ t) := by
  obtain ⟨⟨xc, hread, hxc0, hxcU, hxc1⟩, hpend⟩ := h
  cases hts : σ.ts[t]? with
  | none =>
    have he : poolStep i σ t = σ := by unfold poolStep; rw [hts]
    rw [he]
    exact ⟨⟨xc, hread, hxc0, hxcU, hxc1⟩, hpend⟩
  | some s =>
    cases s with
    | done =>
      have he : poolStep i σ t = σ := by unfold poolStep; rw [hts]
      rw [he]
      exact ⟨⟨xc, hread, hxc0, hxcU, hxc1⟩, hpend⟩
    | idle =>
      have hlt : t < σ.ts.length := (List.getElem?_eq_some.mp hts).1
      have he : poolStep i σ t = ⟨σ.canvas, σ.ts.set t (.pending ⟨xc, y0⟩)⟩ := by
        unfold poolStep; rw [hts, hread]
      rw [he]
      have hdc : doneCount ⟨σ.canvas, σ.ts.set t (.pending ⟨xc, y0⟩)⟩ = doneCount σ := by
        have h2 := countP_set_eq TState.isDone σ.ts t (.pending ⟨xc, y0⟩) .idle hts
        simp [TState.isDone] at h2
        unfold doneCount
        show (σ.ts.set t (TState.pending ⟨xc, y0⟩)).countP TState.isDone
          = σ.ts.countP TState.isDone
        omega
      refine ⟨⟨xc, hread, hxc0, ?_, ?_⟩, ?_⟩
      · rw [hdc]; exact hxcU
      · rw [hdc]; exact hxc1
      · intro k o hk
        by_cases hkt : k = t
        · subst hkt
          rw [show (⟨σ.canvas, σ.ts.set k (.pending ⟨xc, y0⟩)⟩ : Pool).ts
              = σ.ts.set k (.pending ⟨xc, y0⟩) from rfl] at hk
          rw [List.getElem?_set_self hlt] at hk
          have ho : (⟨xc, y0⟩ : Coord) = o := by simpa using hk
          rw [← ho]
          exact ⟨rfl, hxc0, by rw [hdc]; exact hxcU⟩
        · rw [show (⟨σ.canvas, σ.ts.set t (.pending ⟨xc, y0⟩)⟩ : Pool).ts
              = σ.ts.set t (.pending ⟨xc, y0⟩) from rfl] at hk
          rw [List.getElem?_set_ne (Ne.symm hkt)] at hk
          obtain ⟨h1, h2, h3⟩ := hpend k o hk
          exact ⟨h1, h2, by rw [hdc]; exact h3⟩
    | pending o =>
      obtain ⟨hoy, hox0, hoxU⟩ := hpend t o hts
      have hlt : t < σ.ts.length := (List.getElem?_eq_some.mp hts).1
      have he : poolStep i σ t
          = ⟨σ.canvas.set_origin i ⟨o.x + 1, o.y⟩, σ.ts.set t .done⟩ := by
        unfold poolStep; rw [hts]
      rw [he]
      have hdc : doneCount ⟨σ.canvas.set_origin i ⟨o.x + 1, o.y⟩, σ.ts.set t .done⟩
          = doneCount σ + 1 := by
        have h2 := countP_set_eq TState.isDone σ.ts t .done (.pending o) hts
        simp [TState.isDone] at h2
        unfold doneCount
        show (σ.ts.set t TState.done).countP TState.isDone
          = σ.ts.countP TState.isDone + 1
        omega
      have hread2 : readOrigin (σ.canvas.set_origin i ⟨o.x + 1, o.y⟩) i
          = some ⟨o.x + 1, o.y⟩ :=
        readOrigin_set_origin σ.canvas i ⟨xc, y0⟩ ⟨o.x + 1, o.y⟩ hread
      refine ⟨⟨o.x + 1, ?_, by linarith, ?_, fun _ => by linarith⟩, ?_⟩
      · rw [← hoy]
        exact hread2
      · rw [hdc]
        push_cast
        linarith
      · intro k o' hk
        by_cases hkt : k = t
        · subst hkt
          rw [show (⟨σ.canvas.set_origin i ⟨o.x + 1, o.y⟩, σ.ts.set k .done⟩ : Pool).ts
              = σ.ts.set k .done from rfl] at hk
          rw [List.getElem?_set_self hlt] at hk
          simp at hk
        · rw [show (⟨σ.canvas.set_origin i ⟨o.x + 1, o.y⟩, σ.ts.set t .done⟩ : Pool).ts
              = σ.ts.set t .done from rfl] at hk
          rw [List.getElem?_set_ne (Ne.symm hkt)] at hk
          obtain ⟨h1, h2, h3⟩ := hpend k o' hk
          refine ⟨h1, h2, ?_⟩
          rw [hdc]
          push_cast
          linarith

/-- The safety invariant is preserved by every schedule. -/
theorem STD_poolRun (i : ℕ) (x0 y0 : ℚ) (σ : Pool) (sched : List ℕ)
    (h : STD i x0 y0 σ) : STD i x0 y0 (poolRun i σ sched) := by
  induction sched generalizing σ with
  | nil => exact h
  | cons t sched ih => exact ih (poolStep i σ t) (STD_poolStep i x0 y0 σ t h)

/-- The lost-update invariant is preserved by every worker step, given
the safety invariant. -/
theorem lossy_poolStep (i : ℕ) (x0 y0 : ℚ) (σ : Pool) (t : ℕ)
    (hstd : STD i x0 y0 σ) (hw : Lossy i x0 y0 σ) :
    Lossy i x0 y0 (poolStep i σ t) := by
  obtain ⟨⟨xc, hread, hxc0, hxcU, hxc1⟩, hpend⟩ := hstd
  cases hts : σ.ts[t]? with
  | none =>
    have he : poolStep i σ t = σ := by unfold poolStep; rw [hts]
    rw [he]; exact hw
  | some s =>
    cases s with
    | done =>
      have he : poolStep i σ t = σ := by unfold poolStep; rw [hts]
      rw [he]; exact hw
    | idle =>
      have hlt : t < σ.ts.length := (List.getElem?_eq_some.mp hts).1
      have he : poolStep i σ t = ⟨σ.canvas, σ.ts.set t (.pending ⟨xc, y0⟩)⟩ := by
        unfold poolStep; rw [hts, hread]
      rw [he]
      have hdc : doneCount ⟨σ.canvas, σ.ts.set t (.pending ⟨xc, y0⟩)⟩ = doneCount σ := by
        have h2 := countP_set_eq TState.isDone σ.ts t (.pending ⟨xc, y0⟩) .idle hts
        simp [TState.isDone] at h2
        unfold doneCount
        show (σ.ts.set t (TState.pending ⟨xc, y0⟩)).countP TState.isDone
          = σ.ts.countP TState.isDone
        omega
      have hpc : pendCount ⟨σ.canvas, σ.ts.set t (.pending ⟨xc, y0⟩)⟩
          = pendCount σ + 1 := by
        have h2 := countP_set_eq TState.isPending σ.ts t (.pending ⟨xc, y0⟩) .idle hts
        simp [TState.isPending] at h2
        unfold pendCount
        show (σ.ts.set t (TState.pending ⟨xc, y0⟩)).countP TState.isPending
          = σ.ts.countP TState.isPending + 1
        omega
      rcases hw with ⟨⟨xc', hread', hxslack⟩, hall⟩ | h2p | ⟨k, o', hko, hslk⟩
      · left
        have hx : xc = xc' := by
          rw [hread] at hread'
          simpa using hread'
        subst hx
        refine ⟨⟨xc, hread, by rw [hdc]; exact hxslack⟩, ?_⟩
        intro k o hk
        have hk2 : (σ.ts.set t (TState.pending ⟨xc, y0⟩))[k]? = some (.pending o) := hk
        by_cases hkt : k = t
        · subst hkt
          rw [List.getElem?_set_self hlt] at hk2
          have ho : (⟨xc, y0⟩ : Coord) = o := by simpa using hk2
          rw [← ho]
          rw [hdc]
          exact hxslack
        · rw [List.getElem?_set_ne (Ne.symm hkt)] at hk2
          rw [hdc]
          exact hall k o hk2
      · right; left
        rw [hpc]
        omega
      · have hkt : k ≠ t := by
          intro hh
          subst hh
          rw [hts] at hko
          simp at hko
        right; right
        refine ⟨k, o', ?_, by rw [hdc]; exact hslk⟩
        show (σ.ts.set t (TState.pending ⟨xc, y0⟩))[k]? = some (.pending o')
        rw [List.getElem?_set_ne (Ne.symm hkt)]
        exact hko
    | pending o =>
      obtain ⟨hoy, hox0, hoxU⟩ := hpend t o hts
      have hlt : t < σ.ts.length := (List.getElem?_eq_some.mp hts).1
      have he : poolStep i σ t
          = ⟨σ.canvas.set_origin i ⟨o.x + 1, o.y⟩, σ.ts.set t .done⟩ := by
        unfold poolStep; rw [hts]
      rw [hoy] at he
      rw [he]
      have hdc : doneCount ⟨σ.canvas.set_origin i ⟨o.x + 1, y0⟩, σ.ts.set t .done⟩
          = doneCount σ + 1 := by
        have h2 := countP_set_eq TState.isDone σ.ts t .done (.pending o) hts
        simp [TState.isDone] at h2
        unfold doneCount
        show (σ.ts.set t TState.done).countP TState.isDone
          = σ.ts.countP TState.isDone + 1
        omega
      have hpc : pendCount ⟨σ.canvas.set_origin i ⟨o.x + 1, y0⟩, σ.ts.set t .done⟩ + 1
          = pendCount σ := by
        have h2 := countP_set_eq TState.isPending σ.ts t .done (.pending o) hts
        simp [TState.isPending] at h2
        unfold pendCount
        show (σ.ts.set t TState.done).countP TState.isPending + 1
          = σ.ts.countP TState.isPending
        omega
      have hread2 : readOrigin (σ.canvas.set_origin i ⟨o.x + 1, y0⟩) i
          = some ⟨o.x + 1, y0⟩ := by
        have h2 := readOrigin_set_origin σ.canvas i ⟨xc, y0⟩ ⟨o.x + 1, o.y⟩ hread
        rw [hoy] at h2
        exact h2
      rcases hw with ⟨⟨xc', hread', hxslack⟩, hall⟩ | h2p | ⟨k, o', hko, hslk⟩
      · left
        have hslack_t := hall t o hts
        refine ⟨⟨o.x + 1, hread2, ?_⟩, ?_⟩
        · rw [hdc]
          push_cast
          linarith
        · intro k o'' hk
          have hk2 : (σ.ts.set t TState.done)[k]? = some (.pending o'') := hk
          by_cases hkt : k = t
          · subst hkt
            rw [List.getElem?_set_self hlt] at hk2
            simp at hk2
          · rw [List.getElem?_set_ne (Ne.symm hkt)] at hk2
            have h3 := (hpend k o'' hk2).2.2
            rw [hdc]
            push_cast
            linarith
      · have hp0 : 0 < pendCount ⟨σ.canvas.set_origin i ⟨o.x + 1, y0⟩,
            σ.ts.set t .done⟩ := by omega
        obtain ⟨k, o', hko'⟩ := exists_pending_of_pendCount_pos _ hp0
        have hkt : k ≠ t := by
          intro hh
          subst hh
          have hk2 : (σ.ts.set k TState.done)[k]? = some (.pending o') := hko'
          rw [List.getElem?_set_self hlt] at hk2
          simp at hk2
        have hold : σ.ts[k]? = some (.pending o') := by
          have hk2 : (σ.ts.set t TState.done)[k]? = some (.pending o') := hko'
          rw [List.getElem?_set_ne (Ne.symm hkt)] at hk2
          exact hk2
        have h3 := (hpend k o' hold).2.2
        right; right
        refine ⟨k, o', hko', ?_⟩
        rw [hdc]
        push_cast
        linarith
      · by_cases hkt : k = t
        · subst hkt
          have ho : o = o' := by
            rw [hts] at hko
            simpa using hko
          subst ho
          left
          refine ⟨⟨o.x + 1, hread2, ?_⟩, ?_⟩
          · rw [hdc]
            push_cast
            linarith
          · intro k' o'' hk
            have hk2 : (σ.ts.set k TState.done)[k']? = some (.pending o'') := hk
            by_cases hkk : k' = k
            · subst hkk
              rw [List.getElem?_set_self hlt] at hk2
              simp at hk2
            · rw [List.getElem?_set_ne (Ne.symm hkk)] at hk2
              have h3 := (hpend k' o'' hk2).2.2
              rw [hdc]
              push_cast
              linarith
        · right; right
          refine ⟨k, o', ?_, ?_⟩
          · show (σ.ts.set t TState.done)[k]? = some (.pending o')
            rw [List.getElem?_set_ne (Ne.symm hkt)]
            exact hko
          · rw [hdc]
            push_cast
            linarith

/-- Both invariants together are preserved by every schedule. -/
theorem lossy_poolRun (i : ℕ) (x0 y0 : ℚ) (σ : Pool) (sched : List ℕ)
    (hstd : STD i x0 y0 σ) (hw : Lossy i x0 y0 σ) :
    Lossy i x0 y0 (poolRun i σ sched) := by
  induction sched generalizing σ with
  | nil => exact hw
  | cons t sched ih =>
    exact ih (poolStep i σ t) (STD_poolStep i x0 y0 σ t hstd)
      (lossy_poolStep i x0 y0 σ t hstd hw)

/-- Running a concatenated schedule runs the two parts in sequence. -/
theorem poolRun_append (i : ℕ) (σ : Pool) (pre suf : List ℕ) :
    poolRun i σ (pre ++ suf) = poolRun i (poolRun i σ pre) suf :=
  List.foldl_append (poolStep i) σ pre suf

/-- Once all workers are joined, the pending count is zero. -/
theorem pendCount_of_allDone (σ : Pool) (h : allDone σ) : pendCount σ = 0 := by
  unfold pendCount
  rw [List.countP_eq_zero]
  intro a ha
  rw [h a ha]
  simp [TState.isPending]

/-- Claim C1: if `n ≥ 1` workers each perform one non-atomic
read-`origin.x` / write-`origin.x + 1` cycle on the shape at index `i`
(each locked read and each locked write is one atomic critical section,
as the shape's per-shape guard provides — exactly what the 10 workers in
`main` do on the rectangle at index 1 starting from `x = 5`), then after
any complete interleaving schedule the final origin is `(xf, y0)` with
`x0 + 1 ≤ xf ≤ x0 + n` (for the demo with `x0 = 5`, `n = 10`: between 6
and 15 inclusive, `y` staying 5), and `xf = x0 + n` is attained only when
no two workers' read/write pairs interleave (at no moment are two workers
simultaneously between their read and their write). -/
theorem rmw_race_bounds (c0 : Canvas) (i n : ℕ) (x0 y0 : ℚ) (sched : List ℕ)
    (hread : readOrigin c0 i = some ⟨x0, y0⟩) (hn : 1 ≤ n)
    (hdone : allDone (poolRun i (initPool c0 n) sched)) :
    ∃ xf : ℚ,
      readOrigin (poolRun i (initPool c0 n) sched).canvas i = some ⟨xf, y0⟩ ∧
      x0 + 1 ≤ xf ∧ xf ≤ x0 + n ∧
      (xf = x0 + n → ¬ Interleaved i (initPool c0 n) sched) := by
  have hstd0 := STD_initPool c0 i n x0 y0 hread
  have hstdf := STD_poolRun i x0 y0 (initPool c0 n) sched hstd0
  have hlen : (poolRun i (initPool c0 n) sched).ts.length = n := by
    rw [poolRun_ts_length]
    simp [initPool]
  have hdcf : doneCount (poolRun i (initPool c0 n) sched) = n := by
    rw [doneCount_of_allDone _ hdone, hlen]
  obtain ⟨⟨xc, hreadf, hxc0, hxcU, hxc1⟩, hpendf⟩ := hstdf
  rw [hdcf] at hxcU hxc1
  refine ⟨xc, hreadf, hxc1 hn, hxcU, ?_⟩
  intro hxeq hint
  obtain ⟨pre, suf, hsched, h2p⟩ := hint
  have hstdm := STD_poolRun i x0 y0 (initPool c0 n) pre hstd0
  have hlossym : Lossy i x0 y0 (poolRun i (initPool c0 n) pre) :=
    Or.inr (Or.inl h2p)
  have hlossyf : Lossy i x0 y0 (poolRun i (initPool c0 n) sched) := by
    rw [hsched, poolRun_append]
    exact lossy_poolRun i x0 y0 _ suf hstdm hlossym
  rcases hlossyf with ⟨⟨xc', hreadf', hslack⟩, _⟩ | h2 | ⟨k, o, hko, _⟩
  · have hx : xc = xc' := by
      rw [hreadf] at hreadf'
      simpa using hreadf'
    rw [hdcf, ← hx] at hslack
    linarith
  · have hp0 := pendCount_of_allDone _ hdone
    omega
  · exact no_pending_of_allDone _ hdone k o hko

/-- Claim C1 witness: the ten-worker demo of `main` (rectangle at index 1
starting from origin `(5, 5)`), run on a fully serial schedule. -/
theorem rmw_race_bounds_witness :
    readOrigin demoCanvasAfterMove 1 = some ⟨5, 5⟩ ∧ 1 ≤ 10 ∧
      allDone (poolRun 1 (initPool demoCanvasAfterMove 10)
        [0, 0, 1, 1, 2, 2, 3, 3, 4, 4, 5, 5, 6, 6, 7, 7, 8, 8, 9, 9]) ∧
      (∃ xf : ℚ,
        readOrigin (poolRun 1 (initPool demoCanvasAfterMove 10)
          [0, 0, 1, 1, 2, 2, 3, 3, 4, 4, 5, 5, 6, 6, 7, 7, 8, 8, 9, 9]).canvas 1
          = some ⟨xf, 5⟩ ∧
        5 + 1 ≤ xf ∧ xf ≤ 5 + (10 : ℕ) ∧
        (xf = 5 + (10 : ℕ) → ¬ Interleaved 1 (initPool demoCanvasAfterMove 10)
          [0, 0, 1, 1, 2, 2, 3, 3, 4, 4, 5, 5, 6, 6, 7, 7, 8, 8, 9, 9])) := by
  refine ⟨by decide, by decide, by decide, ?_⟩
  exact rmw_race_bounds demoCanvasAfterMove 1 10 5 5
    [0, 0, 1, 1, 2, 2, 3, 3, 4, 4, 5, 5, 6, 6, 7, 7, 8, 8, 9, 9]
    (by decide) (by decide) (by decide)
